import Mathlib

/-!
Shallow embedding of the event core of LittleMayaEngine
(`src/systems/EventSystem.h` / `.cpp`).

Modelling choices:
* `Event` carries its C++ `priority : int` (as `Int`), its runtime type
  (`std::type_index`, modelled as a `Nat` kind tag) and an `id` that stands
  for object identity of the `shared_ptr<Event>` payload.
* Listeners are identified by a `Nat` id (object identity of the pointee).
  A `weak_ptr<EventListener>` is the id together with the ambient liveness
  map `live : Nat → Bool`; `lock()` succeeds exactly when `live id = true`.
  The virtual methods `canHandle` / `onEvent` are an environment
  `beh : Nat → EventListener` of boolean-valued functions.
* The `unordered_multimap<type_index, weak_ptr<EventListener>>` is an
  insertion-ordered association list `List (Nat × Nat)` (kind, listener id);
  `equal_range` is filtering by the kind key, keeping registration order.
* The `unordered_map<thread::id, priority_queue<...>>` is an association
  list `List (Nat × List Event)` keyed by thread id, each queue kept as a
  list sorted by `CompareEventPriority` so that `top()` is the head and
  `pop()` the tail; `push` is ordered insertion (new elements go after
  existing ones of equal priority, one refinement of the heap's
  unspecified tie order).
* Dispatch returns, besides the new state, the observable trace: for each
  popped event its source thread id and the ordered list of listener
  callback invocations made for it.  Totality of these functions models
  the code's no-throw behaviour.
-/

/-- An event: `id` models the identity of the `shared_ptr<Event>` object,
`kind` its runtime type (`std::type_index(typeid(*event))`), `priority`
the value returned by `getPriority()`. -/
structure Event where
  id : Nat
  kind : Nat
  priority : Int
deriving DecidableEq, Repr

/-- The virtual interface of `class EventListener`: `canHandle` and
`onEvent`, both returning `bool`. -/
structure EventListener where
  canHandle : Event → Bool
  onEvent : Event → Bool

/-- `struct CompareEventPriority`: `lhs->getPriority() < rhs->getPriority()`. -/
def CompareEventPriority (lhs rhs : Event) : Bool :=
  lhs.priority < rhs.priority

/-- `std::priority_queue::push` under `CompareEventPriority`: ordered
insertion keeping the queue sorted with greatest priority first; an
element is placed after existing elements whose priority is not smaller
(FIFO among equal priorities, one refinement of the heap's unspecified
tie order). -/
def qpush (e : Event) : List Event → List Event
  | [] => [e]
  | x :: xs => if CompareEventPriority x e then e :: x :: xs else x :: qpush e xs

/-- The state of `class EventSystem`: the listener multimap (registration
order) and the thread-id-keyed queue store (queue-creation order). -/
structure EventSystem where
  listeners : List (Nat × Nat)
  eventQueues : List (Nat × List Event)
deriving DecidableEq, Repr

/-- A freshly constructed `EventSystem`. -/
def EventSystem.empty : EventSystem := ⟨[], []⟩

/-- `EventSystem::addListener`: `listeners.insert(make_pair(type, listener))`. -/
def addListener (type : Nat) (listener : Nat) (s : EventSystem) : EventSystem :=
  { s with listeners := s.listeners ++ [(type, listener)] }

/-- The loop body of `EventSystem::removeListener`: iterate all entries;
a live entry equal to the resolved target `l` is erased, a live entry
not equal to it is kept, an expired entry is erased. -/
def removeLoop (live : Nat → Bool) (l : Option Nat) : List (Nat × Nat) → List (Nat × Nat)
  | [] => []
  | (k, lid) :: rest =>
    if live lid then
      if some lid = l then removeLoop live l rest
      else (k, lid) :: removeLoop live l rest
    else removeLoop live l rest

/-- `EventSystem::removeListener`: `auto l = listener.lock();` (here:
`some lref` when `lref` is live, `none` otherwise) followed by the erase
loop over the whole multimap. -/
def removeListener (live : Nat → Bool) (lref : Nat) (s : EventSystem) : EventSystem :=
  let l : Option Nat := if live lref then some lref else none
  { s with listeners := removeLoop live l s.listeners }

/-- `eventQueues[tid]` followed by `queue.push(event)`: update the calling
thread's queue in place, creating it (at the end of the store) if absent. -/
def setQueue (tid : Nat) (e : Event) : List (Nat × List Event) → List (Nat × List Event)
  | [] => [(tid, [e])]
  | (t, q) :: rest =>
    if t = tid then (t, qpush e q) :: rest else (t, q) :: setQueue tid e rest

/-- `EventSystem::pushEvent`, called from thread `tid`. -/
def pushEvent (tid : Nat) (e : Event) (s : EventSystem) : EventSystem :=
  { s with eventQueues := setQueue tid e s.eventQueues }

/-- One observable listener invocation during dispatch. -/
inductive Call where
  | canH (lid : Nat)
  | onEv (lid : Nat)
deriving DecidableEq, Repr

/-- The listener id an invocation was made on. -/
def Call.listener : Call → Nat
  | canH lid => lid
  | onEv lid => lid

/-- The inner listener loop of `EventSystem::dispatch` for one event:
walk the matching entries in order; an expired entry is skipped (not
removed); a live one gets `canHandle(event)`, and if that is true,
`onEvent(event)`; a true result from `onEvent` breaks the loop.  Returns
the invocation trace. -/
def routeLoop (live : Nat → Bool) (beh : Nat → EventListener) (e : Event) :
    List Nat → List Call
  | [] => []
  | lid :: rest =>
    if live lid then
      if (beh lid).canHandle e then
        if (beh lid).onEvent e then [Call.canH lid, Call.onEv lid]
        else Call.canH lid :: Call.onEv lid :: routeLoop live beh e rest
      else Call.canH lid :: routeLoop live beh e rest
    else routeLoop live beh e rest

/-- `listeners.equal_range(type_index(typeid(*event)))`: the listener ids
registered under kind `k`, in registration order. -/
def matchingEntries (listeners : List (Nat × Nat)) (k : Nat) : List Nat :=
  (listeners.filter (fun p => p.1 = k)).map Prod.snd

/-- Routing of one event against the registry. -/
def routeEvent (live : Nat → Bool) (beh : Nat → EventListener)
    (listeners : List (Nat × Nat)) (e : Event) : List Call :=
  routeLoop live beh e (matchingEntries listeners e.kind)

/-- The `while (!queue.empty())` loop of `dispatch` on one queue:
`top()` (the head), route it, `pop()` (the tail), repeat.  Returns the
popped events in order, each with its invocation trace. -/
def drainQueue (live : Nat → Bool) (beh : Nat → EventListener)
    (listeners : List (Nat × Nat)) : List Event → List (Event × List Call)
  | [] => []
  | e :: rest =>
    (e, routeEvent live beh listeners e) :: drainQueue live beh listeners rest

/-- The outer `for (auto& pair : eventQueues)` loop of `dispatch`:
drain each queue in store order, leaving it empty (but present).
Returns the emptied store and the trace tagged with source thread ids. -/
def dispatchQueues (live : Nat → Bool) (beh : Nat → EventListener)
    (listeners : List (Nat × Nat)) :
    List (Nat × List Event) → List (Nat × List Event) × List (Nat × Event × List Call)
  | [] => ([], [])
  | (tid, q) :: rest =>
    let tr := drainQueue live beh listeners q
    let r := dispatchQueues live beh listeners rest
    ((tid, []) :: r.1, tr.map (fun x => (tid, x.1, x.2)) ++ r.2)

/-- `EventSystem::dispatch`: drain every queue, routing each event; the
registry is read but never modified.  The second component is the
observable trace of the whole pass, in temporal order. -/
def dispatch (live : Nat → Bool) (beh : Nat → EventListener) (s : EventSystem) :
    EventSystem × List (Nat × Event × List Call) :=
  let r := dispatchQueues live beh s.listeners s.eventQueues
  ({ s with eventQueues := r.1 }, r.2)

/-- A sequence of `pushEvent` calls (thread id, event) starting from a
fresh system: the producer histories the queue-store claims range over. -/
def runPushes (ps : List (Nat × Event)) : EventSystem :=
  ps.foldl (fun s p => pushEvent p.1 p.2 s) EventSystem.empty

/-- Look up a thread's queue in the store. -/
def findQueue (tid : Nat) : List (Nat × List Event) → Option (List Event)
  | [] => none
  | (t, q) :: rest => if t = tid then some q else findQueue tid rest

/-- All callback invocations of a dispatch pass, flattened in temporal order. -/
def dispatchCalls (live : Nat → Bool) (beh : Nat → EventListener)
    (s : EventSystem) : List Call :=
  (dispatch live beh s).2.flatMap (fun x => x.2.2)

/-- How often `onEvent` was invoked on listener `lid` in a trace. -/
def countOn (lid : Nat) (tr : List Call) : Nat :=
  tr.countP (fun c => c == Call.onEv lid)

/-- How often `canHandle` was invoked on listener `lid` in a trace. -/
def countCan (lid : Nat) (tr : List Call) : Nat :=
  tr.countP (fun c => c == Call.canH lid)

/-! Concrete sample data used by witnesses and counterexamples. -/

/-- Sample event with priority 1 (kind 0, identity 0). -/
def eLow : Event := ⟨0, 0, 1⟩

/-- Sample event with priority 5 (kind 0, identity 1). -/
def eHigh : Event := ⟨1, 0, 5⟩

/-- A liveness map under which every weak reference has expired. -/
def allDead : Nat → Bool := fun _ => false

/-- A liveness map under which every weak reference is resolvable. -/
def allLive : Nat → Bool := fun _ => true

/-- Listener behaviour: `canHandle` and `onEvent` both always true. -/
def behTrue : Nat → EventListener := fun _ => ⟨fun _ => true, fun _ => true⟩

/-- Listener behaviour: `canHandle` always true, `onEvent` always false
(capable but never reports the event handled). -/
def behCanOnly : Nat → EventListener := fun _ => ⟨fun _ => true, fun _ => false⟩

/-! Helper lemmas: the priority queue. -/

/-- The content of a pushed queue is the pushed event plus the old content. -/
theorem qpush_perm (e : Event) (q : List Event) : (qpush e q).Perm (e :: q) := by
  induction q with
  | nil => simp [qpush]
  | cons x xs ih =>
    by_cases h : CompareEventPriority x e = true
    · simp [qpush, h]
    · simp only [qpush, h, if_false, Bool.false_eq_true]
      exact (ih.cons x).trans (List.Perm.swap e x xs)

/-- A queue sorted greatest-priority-first, the invariant `top()` relies on. -/
def QSorted (q : List Event) : Prop :=
  q.Pairwise (fun a b => b.priority ≤ a.priority)

/-- `push` preserves the priority ordering of a queue. -/
theorem qpush_sorted (e : Event) (q : List Event) (h : QSorted q) :
    QSorted (qpush e q) := by
  induction q with
  | nil => simp [qpush, QSorted]
  | cons x xs ih =>
    rw [QSorted, List.pairwise_cons] at h
    obtain ⟨hx, hxs⟩ := h
    by_cases hc : CompareEventPriority x e = true
    · rw [CompareEventPriority, decide_eq_true_eq] at hc
      simp only [qpush, CompareEventPriority, decide_eq_true_eq, if_pos hc]
      rw [QSorted, List.pairwise_cons]
      constructor
      · intro b hb
        rcases List.mem_cons.mp hb with hb | hb
        · exact hb ▸ le_of_lt hc
        · exact le_trans (hx b hb) (le_of_lt hc)
      · rw [QSorted, List.pairwise_cons] at *
        exact ⟨hx, hxs⟩
    · rw [CompareEventPriority, decide_eq_true_eq] at hc
      push_neg at hc
      simp only [qpush, CompareEventPriority, decide_eq_true_eq, if_neg (not_lt.mpr hc)]
      rw [QSorted, List.pairwise_cons]
      refine ⟨?_, ih hxs⟩
      intro b hb
      rcases List.mem_cons.mp ((qpush_perm e xs).mem_iff.mp hb) with hb | hb
      · exact hb ▸ hc
      · exact hx b hb

/-! Helper lemmas: the queue store. -/

/-- `pushEvent` keeps every queue of the store priority-sorted. -/
theorem setQueue_sorted (tid : Nat) (e : Event) (qs : List (Nat × List Event))
    (h : ∀ p ∈ qs, QSorted p.2) : ∀ p ∈ setQueue tid e qs, QSorted p.2 := by
  induction qs with
  | nil =>
    intro p hp
    simp only [setQueue, List.mem_singleton] at hp
    subst hp
    simp [QSorted]
  | cons x rest ih =>
    obtain ⟨t, q⟩ := x
    intro p hp
    by_cases ht : t = tid
    · simp only [setQueue, if_pos ht, List.mem_cons] at hp
      rcases hp with hp | hp
      · subst hp
        exact qpush_sorted e q (h (t, q) (List.mem_cons_self _ _))
      · exact h p (List.mem_cons_of_mem _ hp)
    · simp only [setQueue, if_neg ht, List.mem_cons] at hp
      rcases hp with hp | hp
      · subst hp
        exact h (t, q) (List.mem_cons_self _ _)
      · exact ih (fun p hp => h p (List.mem_cons_of_mem _ hp)) p hp

/-- Any state reached by a history of `pushEvent` calls has every queue
sorted greatest-priority-first. -/
theorem pushes_sorted (ps : List (Nat × Event)) (s : EventSystem)
    (h : ∀ p ∈ s.eventQueues, QSorted p.2) :
    ∀ p ∈ (ps.foldl (fun s p => pushEvent p.1 p.2 s) s).eventQueues, QSorted p.2 := by
  induction ps generalizing s with
  | nil => exact h
  | cons hd tl ih =>
    simp only [List.foldl_cons]
    exact ih _ (setQueue_sorted hd.1 hd.2 s.eventQueues h)

/-- Specialization of `pushes_sorted` to a fresh system. -/
theorem runPushes_sorted (ps : List (Nat × Event)) :
    ∀ p ∈ (runPushes ps).eventQueues, QSorted p.2 :=
  pushes_sorted ps EventSystem.empty (by simp [EventSystem.empty])

/-- A key present after `setQueue` was present before, or is the pushing thread. -/
theorem setQueue_fst_mem (tid : Nat) (e : Event) (qs : List (Nat × List Event))
    (t : Nat) (h : t ∈ (setQueue tid e qs).map Prod.fst) :
    t ∈ qs.map Prod.fst ∨ t = tid := by
  induction qs with
  | nil =>
    simp only [setQueue, List.map_cons, List.map_nil, List.mem_singleton] at h
    exact Or.inr h
  | cons x rest ih =>
    obtain ⟨t', q⟩ := x
    by_cases ht : t' = tid
    · simp only [setQueue, if_pos ht, List.map_cons, List.mem_cons] at h ⊢
      tauto
    · simp only [setQueue, if_neg ht, List.map_cons, List.mem_cons] at h ⊢
      tauto

/-- `setQueue` keeps the thread keys of the store distinct. -/
theorem setQueue_nodup (tid : Nat) (e : Event) (qs : List (Nat × List Event))
    (h : (qs.map Prod.fst).Nodup) : ((setQueue tid e qs).map Prod.fst).Nodup := by
  induction qs with
  | nil => simp [setQueue]
  | cons x rest ih =>
    obtain ⟨t, q⟩ := x
    simp only [List.map_cons, List.nodup_cons] at h
    by_cases ht : t = tid
    · simp only [setQueue, if_pos ht, List.map_cons, List.nodup_cons]
      exact h
    · simp only [setQueue, if_neg ht, List.map_cons, List.nodup_cons]
      refine ⟨fun hc => ?_, ih h.2⟩
      rcases setQueue_fst_mem tid e rest t hc with hc | hc
      · exact h.1 hc
      · exact ht hc

/-- Any state reached by a history of `pushEvent` calls has distinct
thread keys in its queue store. -/
theorem pushes_nodup (ps : List (Nat × Event)) (s : EventSystem)
    (h : (s.eventQueues.map Prod.fst).Nodup) :
    (((ps.foldl (fun s p => pushEvent p.1 p.2 s) s).eventQueues.map Prod.fst)).Nodup := by
  induction ps generalizing s with
  | nil => exact h
  | cons hd tl ih =>
    simp only [List.foldl_cons]
    exact ih _ (setQueue_nodup hd.1 hd.2 s.eventQueues h)

/-- Specialization of `pushes_nodup` to a fresh system. -/
theorem runPushes_nodup (ps : List (Nat × Event)) :
    ((runPushes ps).eventQueues.map Prod.fst).Nodup :=
  pushes_nodup ps EventSystem.empty (by simp [EventSystem.empty])

/-- A successful queue lookup is a membership in the store. -/
theorem findQueue_mem (tid : Nat) (qs : List (Nat × List Event)) (q : List Event)
    (h : findQueue tid qs = some q) : (tid, q) ∈ qs := by
  induction qs with
  | nil => simp [findQueue] at h
  | cons x rest ih =>
    obtain ⟨t, q'⟩ := x
    simp only [findQueue] at h
    by_cases ht : t = tid
    · subst ht
      rw [if_pos rfl] at h
      injection h with h
      subst h
      exact List.mem_cons_self _ _
    · rw [if_neg ht] at h
      exact List.mem_cons_of_mem _ (ih h)

/-! Helper lemmas: the dispatch trace. -/

/-- The events popped from one queue are exactly that queue, in order. -/
theorem drainQueue_fst (live : Nat → Bool) (beh : Nat → EventListener)
    (ls : List (Nat × Nat)) (q : List Event) :
    (drainQueue live beh ls q).map Prod.fst = q := by
  induction q with
  | nil => rfl
  | cons e rest ih => simp [drainQueue, ih]

/-- Every trace entry of a dispatch pass is tagged with a thread key of
the store it was run on. -/
theorem dispatchQueues_trace_tid (live : Nat → Bool) (beh : Nat → EventListener)
    (ls : List (Nat × Nat)) (qs : List (Nat × List Event)) :
    ∀ x ∈ (dispatchQueues live beh ls qs).2, x.1 ∈ qs.map Prod.fst := by
  induction qs with
  | nil => simp [dispatchQueues]
  | cons p rest ih =>
    obtain ⟨t, q⟩ := p
    intro x hx
    simp only [dispatchQueues, List.mem_append, List.mem_map] at hx
    rcases hx with ⟨y, _, hy⟩ | hx
    · simp [← hy]
    · exact List.mem_cons_of_mem _ (ih x hx)

/-- With distinct thread keys, the part of a dispatch trace tagged with
thread `tid` is exactly that thread's queue, popped in queue order. -/
theorem dispatchQueues_filter (live : Nat → Bool) (beh : Nat → EventListener)
    (ls : List (Nat × Nat)) (qs : List (Nat × List Event)) (tid : Nat) (q : List Event)
    (hnd : (qs.map Prod.fst).Nodup) (hmem : (tid, q) ∈ qs) :
    ((dispatchQueues live beh ls qs).2.filter (fun x => x.1 == tid)).map
      (fun x => x.2.1) = q := by
  induction qs with
  | nil => simp at hmem
  | cons p rest ih =>
    obtain ⟨t, q'⟩ := p
    simp only [List.map_cons, List.nodup_cons] at hnd
    rcases List.mem_cons.mp hmem with hm | hm
    · injection hm with h1 h2
      subst h1
      subst h2
      have hrest : ((dispatchQueues live beh ls rest).2.filter
          (fun x => x.1 == tid)) = [] := by
        rw [List.filter_eq_nil_iff]
        intro a ha
        have := dispatchQueues_trace_tid live beh ls rest a ha
        simp only [beq_iff_eq]
        intro hc
        exact hnd.1 (hc ▸ this)
      simp only [dispatchQueues, List.filter_append, hrest, List.append_nil,
        List.filter_map, List.map_map]
      have hf : (((fun x : Nat × Event × List Call => x.1 == tid)) ∘
          (fun x : Event × List Call => (tid, x.1, x.2))) = fun _ => true := by
        funext y
        simp
      rw [hf, List.filter_true]
      have : ((fun x : Nat × Event × List Call => x.2.1) ∘
          (fun x : Event × List Call => (tid, x.1, x.2))) = Prod.fst := by
        funext y
        rfl
      rw [this, drainQueue_fst]
    · have htid : tid ∈ rest.map Prod.fst :=
        List.mem_map.mpr ⟨(tid, q), hm, rfl⟩
      have hne : ¬(t == tid) = true := by
        simp only [beq_iff_eq]
        intro hc
        exact hnd.1 (hc ▸ htid)
      have hblock : ∀ y ∈ (drainQueue live beh ls q').map
          (fun x => (t, x.1, x.2)), ¬(y.1 == tid) = true := by
        intro y hy
        rcases List.mem_map.mp hy with ⟨z, _, hz⟩
        rw [← hz]
        exact hne
      simp only [dispatchQueues, List.filter_append,
        List.filter_eq_nil_iff.mpr hblock, List.nil_append]
      exact ih hnd.2 hm

/-! Claim C1. -/

/-- C1: within a single per-thread queue, events are dispatched in strict
priority order.  For any state reached by a history of `pushEvent` calls,
if thread `tid`'s queue is `q` and `q.get i` has strictly greater priority
than `q.get j`, then `i < j` — and a dispatch pass pops the events of that
queue (the trace entries tagged `tid`) exactly in queue order, so the
higher-priority event is popped and offered to listeners first. -/
theorem dispatch_priority_order (ps : List (Nat × Event)) (tid : Nat)
    (q : List Event) (live : Nat → Bool) (beh : Nat → EventListener)
    (hq : findQueue tid (runPushes ps).eventQueues = some q)
    (i j : Fin q.length) (hp : (q.get j).priority < (q.get i).priority) :
    i < j ∧
    ((dispatch live beh (runPushes ps)).2.filter (fun x => x.1 == tid)).map
      (fun x => x.2.1) = q := by
  have hmem := findQueue_mem tid _ q hq
  have hsort := runPushes_sorted ps (tid, q) hmem
  constructor
  · rcases lt_trichotomy i j with h | h | h
    · exact h
    · rw [h] at hp
      exact absurd hp (lt_irrefl _)
    · have hle := (List.pairwise_iff_get.mp hsort) j i h
      exact absurd (lt_of_le_of_lt hle hp) (lt_irrefl _)
  · simp only [dispatch]
    exact dispatchQueues_filter live beh (runPushes ps).listeners
      (runPushes ps).eventQueues tid q (runPushes_nodup ps) hmem

/-- Witness for C1: two events pushed from thread 0 with priorities 1
then 5; the queue is `[eHigh, eLow]` and the higher-priority event is
popped first by dispatch. -/
theorem dispatch_priority_order_witness :
    (⟨0, by decide⟩ : Fin ([eHigh, eLow] : List Event).length) < ⟨1, by decide⟩ ∧
    ((dispatch allDead behTrue (runPushes [(0, eLow), (0, eHigh)])).2.filter
      (fun x => x.1 == 0)).map (fun x => x.2.1) = [eHigh, eLow] :=
  dispatch_priority_order [(0, eLow), (0, eHigh)] 0 [eHigh, eLow] allDead behTrue
    (by decide) ⟨0, by decide⟩ ⟨1, by decide⟩ (by decide)

/-! Claim C2. -/

/-- The listener loop stops at the first live, capable and successful
listener: if every id in `es1` fails to be live-capable-successful and
`l1` is, routing `es1 ++ l1 :: es2` performs the calls of `es1`, then
`canHandle` and `onEvent` on `l1`, and nothing after. -/
theorem routeLoop_stop (live : Nat → Bool) (beh : Nat → EventListener) (e : Event)
    (es1 es2 : List Nat) (l1 : Nat)
    (hpre : ∀ l ∈ es1, ¬(live l = true ∧ (beh l).canHandle e = true ∧
      (beh l).onEvent e = true))
    (h1 : live l1 = true) (h2 : (beh l1).canHandle e = true)
    (h3 : (beh l1).onEvent e = true) :
    routeLoop live beh e (es1 ++ l1 :: es2) =
      routeLoop live beh e es1 ++ [Call.canH l1, Call.onEv l1] := by
  induction es1 with
  | nil => simp [routeLoop, h1, h2, h3]
  | cons a as ih =>
    have ihr := ih (fun l hl => hpre l (List.mem_cons_of_mem a hl))
    by_cases ha : live a = true
    · by_cases hc : (beh a).canHandle e = true
      · have ho : (beh a).onEvent e = false := by
          cases hoe : (beh a).onEvent e
          · rfl
          · exact absurd ⟨ha, hc, hoe⟩ (hpre a (List.mem_cons_self a as))
        simp [routeLoop, ha, hc, ho, ihr]
      · simp [routeLoop, ha, hc, ihr]
    · simp only [Bool.not_eq_true] at ha
      simp [routeLoop, ha, ihr]

/-- C2: at-most-one-handler delivery.  Dispatch iterates the registry
entries matching the event's kind in registration order
(`matchingEntries`); once it reaches the first live listener whose
`canHandle` is true and whose `onEvent` returns true, it calls exactly
`canHandle` then `onEvent` on it and invokes no further listener — every
entry after it (the ids in `es2`) is never called. -/
theorem dispatch_at_most_one_handler (live : Nat → Bool) (beh : Nat → EventListener)
    (regs : List (Nat × Nat)) (e : Event) (es1 es2 : List Nat) (l1 : Nat)
    (hm : matchingEntries regs e.kind = es1 ++ l1 :: es2)
    (hpre : ∀ l ∈ es1, ¬(live l = true ∧ (beh l).canHandle e = true ∧
      (beh l).onEvent e = true))
    (h1 : live l1 = true) (h2 : (beh l1).canHandle e = true)
    (h3 : (beh l1).onEvent e = true) :
    routeEvent live beh regs e =
      routeLoop live beh e es1 ++ [Call.canH l1, Call.onEv l1] := by
  rw [routeEvent, hm]
  exact routeLoop_stop live beh e es1 es2 l1 hpre h1 h2 h3

/-- Witness for C2: listeners 1 and 2 both registered for kind 0 in that
order, both live and capable, listener 1 handles; routing event `eLow`
calls only listener 1. -/
theorem dispatch_at_most_one_handler_witness :
    routeEvent allLive behTrue [(0, 1), (0, 2)] eLow =
      routeLoop allLive behTrue eLow [] ++ [Call.canH 1, Call.onEv 1] :=
  dispatch_at_most_one_handler allLive behTrue [(0, 1), (0, 2)] eLow [] [2] 1
    (by decide) (by decide) (by decide) (by decide) (by decide)

/-! Claim C3. -/

/-- The dispatch pass leaves every queue entry present but empty. -/
theorem dispatchQueues_state (live : Nat → Bool) (beh : Nat → EventListener)
    (ls : List (Nat × Nat)) (qs : List (Nat × List Event)) :
    (dispatchQueues live beh ls qs).1 = qs.map (fun p => (p.1, ([] : List Event))) := by
  induction qs with
  | nil => rfl
  | cons p rest ih =>
    obtain ⟨t, q⟩ := p
    simp [dispatchQueues, ih]

/-- The (thread, event) pairs of a dispatch trace are exactly the
concatenation of the queues' contents, queue by queue in store order. -/
theorem dispatchQueues_trace_events (live : Nat → Bool) (beh : Nat → EventListener)
    (ls : List (Nat × Nat)) (qs : List (Nat × List Event)) :
    (dispatchQueues live beh ls qs).2.map (fun x => (x.1, x.2.1)) =
      (qs.map (fun p => p.2.map (fun e => (p.1, e)))).flatten := by
  induction qs with
  | nil => rfl
  | cons p rest ih =>
    obtain ⟨t, q⟩ := p
    simp only [dispatchQueues, List.map_cons, List.flatten_cons, List.map_append, ← ih,
      List.map_map]
    congr 1
    have h1 : ((fun x : Nat × Event × List Call => (x.1, x.2.1)) ∘
        (fun x : Event × List Call => (t, x.1, x.2))) =
        ((fun e : Event => (t, e)) ∘ Prod.fst) := by
      funext y
      rfl
    rw [h1, ← List.map_map, drainQueue_fst]

/-- C3: a single `dispatch()` call drains every thread's queue.  The
trace's (thread, event) pairs are exactly the pre-call contents of all
queues — every enqueued event, from every producer thread, is popped
exactly once, whether or not any listener handled it — and on return
every queue in the store is empty. -/
theorem dispatch_drains_all (live : Nat → Bool) (beh : Nat → EventListener)
    (s : EventSystem) :
    (dispatch live beh s).2.map (fun x => (x.1, x.2.1)) =
      (s.eventQueues.map (fun p => p.2.map (fun e => (p.1, e)))).flatten ∧
    (dispatch live beh s).1.eventQueues.all (fun p => p.2.isEmpty) = true := by
  constructor
  · simp only [dispatch]
    exact dispatchQueues_trace_events live beh s.listeners s.eventQueues
  · simp only [dispatch, dispatchQueues_state]
    simp [List.all_eq_true]

/-! Claim C4. -/

/-- The erase loop of `removeListener` is a filter: an entry survives
exactly when it is live and its resolution differs from `l`. -/
theorem removeLoop_eq_filter (live : Nat → Bool) (l : Option Nat)
    (ls : List (Nat × Nat)) :
    removeLoop live l ls =
      ls.filter (fun p => live p.2 && !(decide (some p.2 = l))) := by
  induction ls with
  | nil => rfl
  | cons p rest ih =>
    obtain ⟨k, lid⟩ := p
    by_cases hl : live lid = true
    · by_cases he : some lid = l
      · simp [removeLoop, hl, he, List.filter_cons, ih]
      · simp [removeLoop, hl, he, List.filter_cons, ih]
    · simp only [Bool.not_eq_true] at hl
      simp [removeLoop, hl, List.filter_cons, ih]

/-- C4: `removeListener(l)` removes, across all kind keys, exactly the
entries whose resolved listener equals the resolution of `l` together
with every entry that can no longer be resolved; all other entries (and
the queue store) are untouched.  When `l` is expired or never registered
no live registration is removed: only expired entries go. -/
theorem removeListener_exact (live : Nat → Bool) (lref : Nat) (s : EventSystem) :
    (removeListener live lref s).listeners =
      s.listeners.filter (fun p => live p.2 && !(live lref && decide (p.2 = lref))) ∧
    (removeListener live lref s).eventQueues = s.eventQueues := by
  refine ⟨?_, rfl⟩
  simp only [removeListener, removeLoop_eq_filter]
  apply List.filter_congr
  intro p _
  by_cases hr : live lref = true
  · simp [hr]
  · simp only [Bool.not_eq_true] at hr
    simp [hr]

/-! Claim C5. -/

/-- Every callback invocation made by the listener loop is on a listener
whose weak reference resolved: expired entries get no call at all. -/
theorem routeLoop_calls_live (live : Nat → Bool) (beh : Nat → EventListener)
    (e : Event) (es : List Nat) :
    ∀ c ∈ routeLoop live beh e es, live c.listener = true := by
  induction es with
  | nil => simp [routeLoop]
  | cons lid rest ih =>
    intro c hc
    by_cases hl : live lid = true
    · by_cases hch : (beh lid).canHandle e = true
      · by_cases hoe : (beh lid).onEvent e = true
        · simp only [routeLoop, hl, hch, hoe, if_true, List.mem_cons,
            List.not_mem_nil, or_false] at hc
          rcases hc with hc | hc <;> simp [hc, Call.listener, hl]
        · simp only [routeLoop, hl, hch, hoe, if_true, Bool.false_eq_true, if_false,
            List.mem_cons] at hc
          rcases hc with hc | hc | hc
          · simp [hc, Call.listener, hl]
          · simp [hc, Call.listener, hl]
          · exact ih c hc
      · simp only [routeLoop, hl, hch, if_true, Bool.false_eq_true, if_false,
          List.mem_cons] at hc
        rcases hc with hc | hc
        · simp [hc, Call.listener, hl]
        · exact ih c hc
    · simp only [Bool.not_eq_true] at hl
      simp only [routeLoop, hl, Bool.false_eq_true, if_false] at hc
      exact ih c hc

/-- All callback invocations of a whole dispatch pass are on live listeners. -/
theorem dispatchQueues_calls_live (live : Nat → Bool) (beh : Nat → EventListener)
    (ls : List (Nat × Nat)) (qs : List (Nat × List Event)) :
    ∀ x ∈ (dispatchQueues live beh ls qs).2, ∀ c ∈ x.2.2, live c.listener = true := by
  induction qs with
  | nil => simp [dispatchQueues]
  | cons p rest ih =>
    obtain ⟨t, q⟩ := p
    intro x hx
    simp only [dispatchQueues, List.mem_append, List.mem_map] at hx
    rcases hx with ⟨y, hy, hxy⟩ | hx
    · intro c hc
      rw [← hxy] at hc
      have : y ∈ drainQueue live beh ls q := hy
      clear hy hxy
      induction q with
      | nil => simp [drainQueue] at this
      | cons e es ihq =>
        simp only [drainQueue, List.mem_cons] at this
        rcases this with h | h
        · rw [h] at hc
          exact routeLoop_calls_live live beh e _ c hc
        · exact ihq h
    · exact ih x hx

/-- C5: weak-lifetime safety.  If listener `lid`'s owner has destroyed it
(`live lid = false`), a dispatch pass — which is a total function, so it
always completes — invokes neither `canHandle` nor `onEvent` on that
registration: no call in the whole trace is on `lid`. -/
theorem dispatch_weak_lifetime (live : Nat → Bool) (beh : Nat → EventListener)
    (s : EventSystem) (lid : Nat) (h : live lid = false) :
    ((dispatch live beh s).2.all (fun x => x.2.2.all (fun c => c.listener != lid))) =
      true := by
  rw [List.all_eq_true]
  intro x hx
  rw [List.all_eq_true]
  intro c hc
  have hl := dispatchQueues_calls_live live beh s.listeners s.eventQueues x hx c hc
  simp only [bne_iff_ne, ne_eq]
  intro hEq
  rw [hEq, h] at hl
  exact Bool.false_ne_true hl

/-- Witness for C5: listener 1 is registered for kind 0 but expired; the
dispatch of a matching event makes no call on it. -/
theorem dispatch_weak_lifetime_witness :
    ((dispatch allDead behTrue ⟨[(0, 1)], [(0, [eLow])]⟩).2.all
      (fun x => x.2.2.all (fun c => c.listener != 1))) = true :=
  dispatch_weak_lifetime allDead behTrue ⟨[(0, 1)], [(0, [eLow])]⟩ 1 (by decide)

/-! Claim C6. -/

/-- Counterexample to C6 as stated: listener 1 is live, registered twice
under kind 0, with `canHandle` and `onEvent` both true; dispatching one
matching event invokes `onEvent` once — not once per registration (2) —
because the first successful `onEvent` breaks the listener loop. -/
theorem duplicate_registration_cex :
    countOn 1 (dispatchCalls allLive behTrue
      ⟨List.replicate 2 (0, 1), [(0, [eLow])]⟩) = 1 ∧
    ¬(countOn 1 (dispatchCalls allLive behTrue
      ⟨List.replicate 2 (0, 1), [(0, [eLow])]⟩) = 2) := by
  decide

/-- The registry entries matching kind `k` of `n` identical registrations
of `lid` under `k` are `n` copies of `lid`. -/
theorem matchingEntries_replicate (n k lid : Nat) :
    matchingEntries (List.replicate n (k, lid)) k = List.replicate n lid := by
  induction n with
  | zero => rfl
  | succ m ih =>
    simp only [matchingEntries] at ih
    simp [List.replicate_succ, matchingEntries, List.filter_cons, ih]

/-- A live, capable listener that never reports the event handled is
called once per entry when routed through `n` copies of its id. -/
theorem routeLoop_replicate_unhandled (live : Nat → Bool) (beh : Nat → EventListener)
    (e : Event) (lid n : Nat) (h1 : live lid = true)
    (h2 : (beh lid).canHandle e = true) (h3 : (beh lid).onEvent e = false) :
    countOn lid (routeLoop live beh e (List.replicate n lid)) = n ∧
    countCan lid (routeLoop live beh e (List.replicate n lid)) = n := by
  induction n with
  | zero => simp [routeLoop, countOn, countCan]
  | succ m ih =>
    simp only [List.replicate_succ, routeLoop, h1, h2, h3, if_true,
      Bool.false_eq_true, if_false, countOn, countCan, List.countP_cons] at *
    simp only [ih.1, ih.2]
    constructor <;> simp [beq_iff_eq]

/-- C6 amended: if a live listener whose `canHandle` accepts the event
but whose `onEvent` returns false (it never reports the event handled)
is registered `n` times under the event's kind, a dispatch of one
matching event invokes it once per registration — `canHandle` and
`onEvent` each exactly `n` times.  (When `onEvent` returns true the loop
breaks after the first registration: see the counterexample.) -/
theorem duplicate_registration_unhandled (live : Nat → Bool)
    (beh : Nat → EventListener) (lid n t : Nat) (e : Event)
    (h1 : live lid = true) (h2 : (beh lid).canHandle e = true)
    (h3 : (beh lid).onEvent e = false) :
    countOn lid (dispatchCalls live beh
      ⟨List.replicate n (e.kind, lid), [(t, [e])]⟩) = n ∧
    countCan lid (dispatchCalls live beh
      ⟨List.replicate n (e.kind, lid), [(t, [e])]⟩) = n := by
  have hd : dispatchCalls live beh ⟨List.replicate n (e.kind, lid), [(t, [e])]⟩ =
      routeLoop live beh e (List.replicate n lid) := by
    simp [dispatchCalls, dispatch, dispatchQueues, drainQueue, routeEvent,
      matchingEntries_replicate]
  rw [hd]
  exact routeLoop_replicate_unhandled live beh e lid n h1 h2 h3

/-- Witness for the amended C6: listener 1 live, capable, unhandling,
registered twice for kind 0: both callbacks run exactly twice. -/
theorem duplicate_registration_unhandled_witness :
    countOn 1 (dispatchCalls allLive behCanOnly
      ⟨List.replicate 2 (eLow.kind, 1), [(0, [eLow])]⟩) = 2 ∧
    countCan 1 (dispatchCalls allLive behCanOnly
      ⟨List.replicate 2 (eLow.kind, 1), [(0, [eLow])]⟩) = 2 :=
  duplicate_registration_unhandled allLive behCanOnly 1 2 0 eLow
    (by decide) (by decide) (by decide)

/-! Claim C7. -/

/-- Counterexample to C7 as stated: listener 1 is registered for kind 0
and expired; a dispatch that routes a kind-0 event leaves the stale entry
in the registry — dispatch's routing lookup skips expired entries but
never purges them. -/
theorem purge_on_dispatch_cex :
    (0, 1) ∈ (dispatch allDead behTrue ⟨[(0, 1)], [(0, [eLow])]⟩).1.listeners ∧
    (dispatch allDead behTrue ⟨[(0, 1)], [(0, [eLow])]⟩).1.listeners = [(0, 1)] := by
  decide

/-- C7 amended: stale entries are purged only by `removeListener`'s scan,
which afterwards leaves no unresolvable entry in the registry; a dispatch
pass leaves the registry — stale entries included — entirely unchanged. -/
theorem purge_on_remove_only (live : Nat → Bool) (lref : Nat)
    (beh : Nat → EventListener) (s : EventSystem) :
    ((removeListener live lref s).listeners.all (fun p => live p.2)) = true ∧
    (dispatch live beh s).1.listeners = s.listeners := by
  constructor
  · rw [List.all_eq_true]
    intro p hp
    simp only [removeListener, removeLoop_eq_filter] at hp
    have hm := List.of_mem_filter hp
    rw [Bool.and_eq_true] at hm
    exact hm.1
  · rfl

/-! Claim C8. -/

/-- `setQueue` leaves every other thread's queue untouched. -/
theorem findQueue_setQueue_ne (tid tid' : Nat) (e : Event)
    (qs : List (Nat × List Event)) (h : tid' ≠ tid) :
    findQueue tid' (setQueue tid e qs) = findQueue tid' qs := by
  induction qs with
  | nil =>
    simp only [setQueue, findQueue]
    rw [if_neg (fun hc => h hc.symm)]
  | cons p rest ih =>
    obtain ⟨t, q⟩ := p
    by_cases ht : t = tid
    · subst ht
      simp only [setQueue, if_pos rfl, findQueue]
      rw [if_neg (fun hc => h hc.symm), if_neg (fun hc => h hc.symm)]
    · by_cases ht' : t = tid'
      · subst ht'
        simp [setQueue, ht, findQueue]
      · simp only [setQueue, if_neg ht, findQueue, if_neg ht']
        exact ih

/-- `setQueue` gives the calling thread the pushed queue, created from
the empty queue when absent. -/
theorem findQueue_setQueue_self (tid : Nat) (e : Event)
    (qs : List (Nat × List Event)) :
    findQueue tid (setQueue tid e qs) =
      some (qpush e ((findQueue tid qs).getD [])) := by
  induction qs with
  | nil => simp [setQueue, findQueue, qpush]
  | cons p rest ih =>
    obtain ⟨t, q⟩ := p
    by_cases ht : t = tid
    · subst ht
      simp [setQueue, findQueue]
    · simp [setQueue, findQueue, ht, ih]

/-- C8: `pushEvent` from thread `tid` enqueues the event only into that
thread's queue (creating it if absent): the registry is unchanged, every
other thread's queue is unchanged, and the caller's queue gains exactly
the pushed event. -/
theorem pushEvent_frame (tid : Nat) (e : Event) (s : EventSystem) (tid' : Nat)
    (h : tid' ≠ tid) :
    (pushEvent tid e s).listeners = s.listeners ∧
    findQueue tid' (pushEvent tid e s).eventQueues =
      findQueue tid' s.eventQueues ∧
    ((findQueue tid (pushEvent tid e s).eventQueues).getD []).Perm
      (e :: (findQueue tid s.eventQueues).getD []) := by
  refine ⟨rfl, ?_, ?_⟩
  · exact findQueue_setQueue_ne tid tid' e s.eventQueues h
  · rw [pushEvent, findQueue_setQueue_self]
    exact qpush_perm e _

/-- Witness for C8: pushing `eLow` from thread 0 into a fresh system
creates queue 0 containing exactly that event and touches nothing else. -/
theorem pushEvent_frame_witness :
    (pushEvent 0 eLow EventSystem.empty).listeners = EventSystem.empty.listeners ∧
    findQueue 1 (pushEvent 0 eLow EventSystem.empty).eventQueues =
      findQueue 1 EventSystem.empty.eventQueues ∧
    ((findQueue 0 (pushEvent 0 eLow EventSystem.empty).eventQueues).getD []).Perm
      (eLow :: (findQueue 0 EventSystem.empty.eventQueues).getD []) :=
  pushEvent_frame 0 eLow EventSystem.empty 1 (by decide)

/-! Claim C9. -/

/-- `setQueue` only ever appends to the store's key list: the old keys
are a prefix of the new ones. -/
theorem setQueue_keys (tid : Nat) (e : Event) (qs : List (Nat × List Event)) :
    ∃ t, qs.map Prod.fst ++ t = (setQueue tid e qs).map Prod.fst := by
  induction qs with
  | nil => exact ⟨[tid], rfl⟩
  | cons p rest ih =>
    obtain ⟨t', q⟩ := p
    by_cases ht : t' = tid
    · exact ⟨[], by simp [setQueue, ht]⟩
    · obtain ⟨t, htl⟩ := ih
      refine ⟨t, ?_⟩
      simp only [setQueue, if_neg ht, List.map_cons, List.cons_append]
      rw [htl]

/-- C9: queue-store monotonicity.  `pushEvent` only appends to the set of
thread keys, `dispatch` empties queues but keeps every key, and
`addListener`/`removeListener` do not touch the queue store at all — no
operation ever removes a queue's entry. -/
theorem queue_store_monotone (tid : Nat) (e : Event) (live : Nat → Bool)
    (lref k lid : Nat) (beh : Nat → EventListener) (s : EventSystem) :
    (∃ t, s.eventQueues.map Prod.fst ++ t =
      (pushEvent tid e s).eventQueues.map Prod.fst) ∧
    (dispatch live beh s).1.eventQueues.map Prod.fst =
      s.eventQueues.map Prod.fst ∧
    (addListener k lid s).eventQueues = s.eventQueues ∧
    (removeListener live lref s).eventQueues = s.eventQueues := by
  refine ⟨setQueue_keys tid e s.eventQueues, ?_, rfl, rfl⟩
  simp only [dispatch, dispatchQueues_state, List.map_map]
  rfl

/-! Claim C10. -/

/-- With distinct thread keys, a dispatch trace decomposes, for any
thread id `t`, into a prefix without `t`, one contiguous block of all the
`t`-tagged entries, and a suffix without `t`. -/
theorem dispatchQueues_block (live : Nat → Bool) (beh : Nat → EventListener)
    (ls : List (Nat × Nat)) (qs : List (Nat × List Event)) (t : Nat)
    (hnd : (qs.map Prod.fst).Nodup) :
    ∃ pre mid post,
      (dispatchQueues live beh ls qs).2 = pre ++ mid ++ post ∧
      mid.all (fun x => x.1 == t) = true ∧
      pre.all (fun x => x.1 != t) = true ∧
      post.all (fun x => x.1 != t) = true := by
  induction qs with
  | nil => exact ⟨[], [], [], rfl, rfl, rfl, rfl⟩
  | cons p rest ih =>
    obtain ⟨t', q⟩ := p
    simp only [List.map_cons, List.nodup_cons] at hnd
    by_cases ht : t' = t
    · subst ht
      refine ⟨[], (drainQueue live beh ls q).map
          (fun x : Event × List Call => ((t', x.1, x.2) : Nat × Event × List Call)),
        (dispatchQueues live beh ls rest).2, ?_, ?_, rfl, ?_⟩
      · rfl
      · rw [List.all_eq_true]
        intro x hx
        rcases List.mem_map.mp hx with ⟨y, _, hy⟩
        simp [← hy]
      · rw [List.all_eq_true]
        intro x hx
        have hmem := dispatchQueues_trace_tid live beh ls rest x hx
        simp only [bne_iff_ne, ne_eq]
        intro hc
        exact hnd.1 (hc ▸ hmem)
    · obtain ⟨pre, mid, post, heq, hmid, hpre, hpost⟩ := ih hnd.2
      refine ⟨(drainQueue live beh ls q).map
          (fun x : Event × List Call => ((t', x.1, x.2) : Nat × Event × List Call)) ++ pre,
        mid, post, ?_, hmid, ?_, hpost⟩
      · show (drainQueue live beh ls q).map
            (fun x : Event × List Call => ((t', x.1, x.2) : Nat × Event × List Call)) ++
          (dispatchQueues live beh ls rest).2 = _
        rw [heq]
        simp [List.append_assoc]
      · rw [List.all_append, hpre, Bool.and_true, List.all_eq_true]
        intro x hx
        rcases List.mem_map.mp hx with ⟨y, _, hy⟩
        simp only [← hy, bne_iff_ne, ne_eq]
        exact ht

/-- C10: within one dispatch pass, queues are processed one at a time to
exhaustion.  For any state built by `pushEvent` histories (whose thread
keys are distinct) and any thread id `t`, the dispatch trace splits into
a prefix with no `t` entry, a single contiguous block holding every `t`
entry, and a suffix with no `t` entry — no event of another thread's
queue is delivered in between the events of `t`'s queue. -/
theorem dispatch_no_interleaving (ps : List (Nat × Event)) (live : Nat → Bool)
    (beh : Nat → EventListener) (t : Nat) :
    ∃ pre mid post,
      (dispatch live beh (runPushes ps)).2 = pre ++ mid ++ post ∧
      mid.all (fun x => x.1 == t) = true ∧
      pre.all (fun x => x.1 != t) = true ∧
      post.all (fun x => x.1 != t) = true := by
  simp only [dispatch]
  exact dispatchQueues_block live beh (runPushes ps).listeners
    (runPushes ps).eventQueues t (runPushes_nodup ps)
